import Mathlib

/-!
Verification of the CLIP-Seq peak-calling engine (clip_peaks.py).

Shallow embedding conventions:
* Python ints are modelled as `ℤ` (or `ℕ` for list indices).
* Python floats are modelled as `ℝ` where transcendental functions occur
  (Poisson pmf, `math.exp`), and as `ℚ` for read midpoints, which are exact
  half-integers (`genome_pos + read_half - read_walked` with denominators 2,
  exactly representable in double precision).
* Fallible code (unbound local variable, IndexError) returns `Option`.
* The `precomputed_pvals` memo-cache in `count_windows` is omitted: it caches a
  pure function keyed on its exact arguments, so results are unchanged.
* `Gene.chrom`, `Gene.strand` and the `kv` attribute map are omitted: no claim
  concerns them and they never influence the statistical engine.
-/

set_option maxHeartbeats 1000000

/-- Models the `Exon` class.  `stop` models the Python attribute `end`
(a reserved word in Lean); GFF coordinates, 1-based inclusive. -/
structure Exon where
  start : ℤ
  stop : ℤ
deriving DecidableEq

instance : Inhabited Exon := ⟨⟨0, 0⟩⟩

/-- Models the `Gene` class: ordered exon list plus the two expression rates.
In Python `fpkm_exon`/`fpkm_pre` start as `None` and are set before use; here
they are plain reals since no claim concerns the unset state. -/
structure Gene where
  exons : List Exon
  fpkm_exon : ℝ
  fpkm_pre : ℝ

/-- Models Python's `Exon.__cmp__`: exons are ordered by `start` alone. -/
def exonKey (a b : Exon) : Prop := a.start ≤ b.start

instance : DecidableRel exonKey := fun a b => Int.decLe a.start b.start

instance : IsTotal Exon exonKey := ⟨fun a b => Int.le_total a.start b.start⟩

instance : IsTrans Exon exonKey := ⟨fun _ _ _ hab hbc => le_trans hab hbc⟩

/-- Models `Gene.add_exon`: append the new exon, then re-sort (by `start`,
as `Exon.__cmp__` does) only when the previously last exon's `end` exceeds
the new start.  Python's stable `list.sort` is modelled by `insertionSort`
on the same key; the claims only concern sortedness, which any correct sort
of the same key yields. -/
def Gene.add_exon (g : Gene) (s e : ℤ) : Gene :=
  match g.exons.getLast? with
  | some lastE =>
    if s < lastE.stop then
      { g with exons := List.insertionSort exonKey (g.exons ++ [⟨s, e⟩]) }
    else { g with exons := g.exons ++ [⟨s, e⟩] }
  | none => { g with exons := g.exons ++ [⟨s, e⟩] }

/-- Models `cigar_midpoint`'s loop.  State: remaining cigar, `genome_pos`,
`read_walked`.  Reaching the end of the cigar without the match-branch firing
leaves Python's local `midpoint` unassigned (an `UnboundLocalError` at the
`return`), modelled by `none`. -/
def cigar_midpoint_go (read_half : ℚ) : List (ℕ × ℕ) → ℚ → ℚ → Option ℚ
  | [], _, _ => none
  | (op, len) :: rest, genome_pos, read_walked =>
    if op = 0 ∨ op = 7 ∨ op = 8 then
      if read_half ≤ read_walked + (len : ℚ) then
        some (genome_pos + (read_half - read_walked))
      else
        cigar_midpoint_go read_half rest (genome_pos + (len : ℚ)) (read_walked + (len : ℚ))
    else if op = 1 ∨ op = 3 then
      cigar_midpoint_go read_half rest (genome_pos + (len : ℚ)) read_walked
    else if op = 2 then
      cigar_midpoint_go read_half rest genome_pos (read_walked + (len : ℚ))
    else
      -- unknown operation: warning printed, walk continues with unchanged state
      cigar_midpoint_go read_half rest genome_pos read_walked

/-- Models `cigar_midpoint`: `read_half = qlen / 2.0`, walk starts at
`aligned_read.pos` with `read_walked = 0`. -/
def cigar_midpoint (pos : ℤ) (qlen : ℕ) (cigar : List (ℕ × ℕ)) : Option ℚ :=
  cigar_midpoint_go ((qlen : ℚ) / 2) cigar (pos : ℚ) 0

/-- Total read-bases of match-class (0/7/8) cigar operations; used to state
the precondition of claim C9. -/
def match_class_bases (cigar : List (ℕ × ℕ)) : ℕ :=
  (cigar.filter (fun p => decide (p.1 = 0 ∨ p.1 = 7 ∨ p.1 = 8))).foldl
    (fun a p => a + p.2) 0

/-- Models Python's `bisect.bisect_left` on the sorted lists used by the
program: the number of elements strictly below `x`, which for a sorted list
is exactly the leftmost insertion point returned by `bisect_left`. -/
def bisect_left {α : Type} [LinearOrder α] (xs : List α) (x : α) : ℕ :=
  xs.countP (fun m => decide (m < x))

/-- Models Python's `bisect.bisect_right` on sorted lists: the number of
elements at or below `x`, the rightmost insertion point. -/
def bisect_right {α : Type} [LinearOrder α] (xs : List α) (x : α) : ℕ :=
  xs.countP (fun m => decide (m ≤ x))

/-- Models Python list indexing `xs[i]`: in-range indices (including negative
wrap-around) succeed, anything else raises `IndexError` (`none`). -/
def pyIndex (xs : List ℚ) (i : ℤ) : Option ℚ :=
  if 0 ≤ i ∧ i < (xs.length : ℤ) then some (xs.getD i.toNat 0)
  else if 0 ≤ i + (xs.length : ℤ) ∧ i < 0 then some (xs.getD (i + xs.length).toNat 0)
  else none

/-- Models Python's `int()` on a float: truncation toward zero. -/
def pyInt (q : ℚ) : ℤ := if q < 0 then -(Int.floor (-q)) else Int.floor q

/-- Walks the remaining suffix of the list, bumping the index while the
predicate holds; structural-recursion core of `advanceWhile`. -/
def advanceWhileAux {α : Type} (p : α → Bool) : List α → ℕ → ℕ
  | [], i => i
  | x :: rest, i => if p x then advanceWhileAux p rest (i + 1) else i

/-- Models a Python `while i < len(xs) and pred(xs[i]): i += 1` loop:
the first index `≥ i` whose element fails `p`, or `xs.length`. -/
def advanceWhile {α : Type} (xs : List α) (p : α → Bool) (i : ℕ) : ℕ :=
  advanceWhileAux p (xs.drop i) i

/-- Models `scipy.stats.poisson.pmf k mu` for the integer arguments used by
the program: `exp (-mu) * mu ^ k / k!` (for `k < 0` scipy returns 0; the
program only calls it with positive `k`). -/
noncomputable def poisson_pmf (k : ℤ) (mu : ℝ) : ℝ :=
  if k < 0 then 0 else Real.exp (-mu) * mu ^ k.toNat / (Nat.factorial k.toNat : ℝ)

/-- Models the intermediate `sigma` of `scan_stat_approx3`:
`(k-1)*(L-1)*poisson.pmf(k, psi)` with `L = T/w` and `psi = lambd*w`. -/
noncomputable def scan_stat_sigma (k w T : ℤ) (lambd : ℝ) : ℝ :=
  ((k : ℝ) - 1) * ((T : ℝ) / (w : ℝ) - 1) * poisson_pmf k (lambd * (w : ℝ))

/-- Models `scan_stat_approx3`: `p = 1 - exp (-sigma)`. -/
noncomputable def scan_stat_approx3 (k w T : ℤ) (lambd : ℝ) : ℝ :=
  1 - Real.exp (-(scan_stat_sigma k w T lambd))

/-- Models the `while ji < len(junctions) and junctions[ji] <= window_end`
accumulation loop of `convolute_lambda`, fused with the post-loop "back up"
tail term: when the guard first fails at index `ji`, Python backs up to
`ji - 1` and adds the segment from `junctions[ji-1]` to `window_end`.
All indexed accesses are in bounds at the call sites, so `getD _ 0` never
returns its default. -/
noncomputable def conv_go (window_end : ℤ) (fpkm_exon fpkm_pre : ℝ) (junctions : List ℤ)
    (ji : ℕ) (acc : ℝ) : ℝ :=
  if h : ji < junctions.length ∧ junctions.getD ji 0 ≤ window_end then
    conv_go window_end fpkm_exon fpkm_pre junctions (ji + 1)
      (acc + ((junctions.getD ji 0 - junctions.getD (ji - 1) 0 : ℤ) : ℝ) *
        (if ji % 2 = 0 then fpkm_exon + fpkm_pre else fpkm_pre))
  else
    acc + ((window_end - junctions.getD (ji - 1) 0 + 1 : ℤ) : ℝ) *
      (if (ji - 1) % 2 = 0 then fpkm_pre else fpkm_exon + fpkm_pre)
termination_by junctions.length - ji

/-- Models `convolute_lambda`.  Cases in source order: `ji` past all
junctions; next junction beyond the window; junction-spanning window
(first segment, loop, tail, then normalisation by the window length).
The returned value is `fpkm_conv / 1000 * (total_reads / 1e6)`. -/
noncomputable def convolute_lambda (window_start window_end : ℤ) (fpkm_exon fpkm_pre : ℝ)
    (total_reads : ℤ) (junctions : List ℤ) (ji : ℕ) : ℝ :=
  let fpkm_conv : ℝ :=
    if junctions.length ≤ ji then fpkm_exon + fpkm_pre
    else if window_end < junctions.getD ji 0 then
      if ji % 2 = 0 then fpkm_exon + fpkm_pre else fpkm_pre
    else
      conv_go window_end fpkm_exon fpkm_pre junctions (ji + 1)
        (((junctions.getD ji 0 - window_start : ℤ) : ℝ) *
          (if ji % 2 = 0 then fpkm_exon + fpkm_pre else fpkm_pre)) /
        ((window_end - window_start + 1 : ℤ) : ℝ)
  fpkm_conv / 1000 * ((total_reads : ℝ) / 1000000)

/-- Models `range(gene_start, gene_end - window_size + 1)`: the successive
window start positions scanned by `count_windows`. -/
def window_starts (gene_start gene_end window_size : ℤ) : List ℤ :=
  (List.range (gene_end - window_size + 1 - gene_start).toNat).map
    (fun (j : ℕ) => gene_start + (j : ℤ))

/-- Models the body of `count_windows`' scan loop.  State: remaining window
starts, `midpoints_window_start`, `midpoints_window_end`, `junctions_i`.
The early `break` when the left midpoint pointer falls off the end of the
midpoint list returns the statistics accumulated so far. -/
noncomputable def count_windows_go (window_size : ℤ) (fpkm_exon fpkm_pre : ℝ)
    (read_midpoints : List ℚ) (junctions : List ℤ) (total_reads txome_size : ℤ) :
    List ℤ → ℕ → ℕ → ℕ → List (ℤ × ℝ)
  | [], _, _, _ => []
  | ws :: rest, mws, mwe, ji =>
    let mws2 := advanceWhile read_midpoints (fun m => decide (m < (ws : ℚ))) mws
    if read_midpoints.length ≤ mws2 then []
    else
      let we := ws + window_size - 1
      let mwe2 := advanceWhile read_midpoints (fun m => decide (m ≤ (we : ℚ))) mwe
      let cnt : ℤ := (mwe2 : ℤ) - (mws2 : ℤ)
      let ji2 := advanceWhile junctions (fun j => decide (j ≤ ws)) ji
      let lam := convolute_lambda ws we fpkm_exon fpkm_pre total_reads junctions ji2
      if 2 < cnt then
        (cnt, scan_stat_approx3 cnt window_size txome_size lam) ::
          count_windows_go window_size fpkm_exon fpkm_pre read_midpoints junctions
            total_reads txome_size rest mws2 mwe2 ji2
      else
        (cnt, 1) ::
          count_windows_go window_size fpkm_exon fpkm_pre read_midpoints junctions
            total_reads txome_size rest mws2 mwe2 ji2

/-- Models `count_windows` (the unused `clip_in` parameter is dropped):
scan every window start in `range(gene_start, gene_end - window_size + 1)`
with monotone midpoint/junction pointers starting at 0. -/
noncomputable def count_windows (window_size : ℤ) (tx : Gene) (read_midpoints : List ℚ)
    (junctions : List ℤ) (total_reads txome_size : ℤ) : List (ℤ × ℝ) :=
  count_windows_go window_size tx.fpkm_exon tx.fpkm_pre read_midpoints junctions
    total_reads txome_size
    (window_starts (tx.exons.headI).start (tx.exons.getLastI).stop window_size) 0 0 0

/-- Models the loop of `merge_windows`.  State: remaining window statistics,
current index `i`, `window_peak_start` (`Option`), `insig_gap`.  On list
exhaustion with an open peak the final window is emitted with the trailing
insignificant gap stripped (`gene_start + i - 1 - insig_gap + window_size - 1`). -/
noncomputable def merge_go (sig_p : ℝ) (window_size gene_start : ℤ) (gap : ℕ) :
    List (ℤ × ℝ) → ℤ → Option ℤ → ℕ → List (ℤ × ℤ)
  | [], i, ps, insig =>
    match ps with
    | none => []
    | some s => [(gene_start + s, gene_start + i - 1 - (insig : ℤ) + window_size - 1)]
  | cp :: rest, i, ps, insig =>
    if cp.2 < sig_p then
      merge_go sig_p window_size gene_start gap rest (i + 1) (some (ps.getD i)) 0
    else
      match ps with
      | none => merge_go sig_p window_size gene_start gap rest (i + 1) none insig
      | some s =>
        if gap < insig + 1 then
          (gene_start + s, gene_start + i - ((insig : ℤ) + 1) + window_size - 1) ::
            merge_go sig_p window_size gene_start gap rest (i + 1) none 0
        else
          merge_go sig_p window_size gene_start gap rest (i + 1) (some s) (insig + 1)

/-- Models `merge_windows` (Python default `allowed_sig_gap = 1` is passed
explicitly by callers here). -/
noncomputable def merge_windows (window_stats : List (ℤ × ℝ)) (window_size : ℤ) (sig_p : ℝ)
    (gene_start : ℤ) (allowed_sig_gap : ℕ) : List (ℤ × ℤ) :=
  merge_go sig_p window_size gene_start allowed_sig_gap window_stats 0 none 0

/-- Models one iteration of `trim_windows_count`'s loop body:
`(int(read_midpoints[trim_start_i]), int(read_midpoints[trim_end_i-1]+0.5),
trim_end_i - trim_start_i)`, with `none` for a raised `IndexError`. -/
def trim_one (read_midpoints : List ℚ) (wstart wend : ℤ) : Option (ℤ × ℤ × ℤ) :=
  match pyIndex read_midpoints (bisect_left read_midpoints (wstart : ℚ) : ℤ),
        pyIndex read_midpoints ((bisect_right read_midpoints (wend : ℚ) : ℤ) - 1) with
  | some ms, some me =>
    some (pyInt ms, pyInt (me + 1/2),
      (bisect_right read_midpoints (wend : ℚ) : ℤ) -
        (bisect_left read_midpoints (wstart : ℚ) : ℤ))
  | _, _ => none

/-- Models `trim_windows_count`: trim every merged window; an `IndexError`
anywhere aborts the whole call (`none`). -/
def trim_windows_count (windows : List (ℤ × ℤ)) (read_midpoints : List ℚ) :
    Option (List (ℤ × ℤ × ℤ)) :=
  match windows with
  | [] => some []
  | (ws, we) :: rest =>
    (trim_one read_midpoints ws we).bind (fun t =>
      (trim_windows_count rest read_midpoints).map (fun ts => t :: ts))

/-- Models `peak_stats`: re-locate the junction index with `bisect_left`,
recompute lambda over the trimmed span and re-score with the scan statistic
at the peak's own width. -/
noncomputable def peak_stats (windows_counts : List (ℤ × ℤ × ℤ)) (junctions : List ℤ)
    (total_reads txome_size : ℤ) (fpkm_exon fpkm_pre : ℝ) : List (ℤ × ℤ × ℤ × ℝ) :=
  windows_counts.map (fun wc =>
    (wc.1, wc.2.1, wc.2.2,
      scan_stat_approx3 wc.2.2 (wc.2.1 - wc.1 + 1) txome_size
        (convolute_lambda wc.1 wc.2.1 fpkm_exon fpkm_pre total_reads junctions
          (bisect_left junctions wc.1))))

/-- Models `windows2peaks`: merge (gap tolerance 1), trim, re-score. -/
noncomputable def windows2peaks (read_midpoints : List ℚ) (junctions : List ℤ)
    (window_stats : List (ℤ × ℝ)) (window_size : ℤ) (sig_p : ℝ) (tx : Gene)
    (total_reads txome_size : ℤ) : Option (List (ℤ × ℤ × ℤ × ℝ)) :=
  (trim_windows_count
      (merge_windows window_stats window_size sig_p (tx.exons.headI).start 1)
      read_midpoints).map
    (fun t => peak_stats t junctions total_reads txome_size tx.fpkm_exon tx.fpkm_pre)

/-- Models `transcriptome_size`: accumulate
`tx.exons[-1].end - tx.exons[0].start - window_size + 1` over all transcripts
(dict iteration order is irrelevant to the sum). -/
def transcriptome_size (transcripts : List Gene) (window_size : ℤ) : ℤ :=
  transcripts.foldl
    (fun acc tx =>
      acc + ((tx.exons.getLastI).stop - (tx.exons.headI).start - window_size + 1)) 0

/-- Two closed genomic intervals overlap when they share a base. -/
def intervalsOverlap (a b : ℤ × ℤ) : Prop := a.1 ≤ b.2 ∧ b.1 ≤ a.2

/-- Models `Gene.__init__`: a freshly constructed gene has no exons. -/
def gene_empty : Gene := ⟨[], 0, 0⟩

/-- Invariant maintained by `Gene.add_exon`: exons sorted ascending by start,
and every exon well-formed (`start ≤ end`). -/
def exonInv (l : List Exon) : Prop :=
  l.Pairwise exonKey ∧ ∀ ex ∈ l, ex.start ≤ ex.stop

/-- Concrete single-exon transcript spanning [1,10], used in counterexamples. -/
def txSingle : Gene := ⟨[⟨1, 10⟩], 0, 0⟩

/-- Concrete transcript spanning [1000,1015], used in the C6 counterexample. -/
def txSpan : Gene := ⟨[⟨1000, 1015⟩], 0, 0⟩

/-- Concrete single-exon transcript spanning [1,20], used in witnesses. -/
def txLong : Gene := ⟨[⟨1, 20⟩], 0, 0⟩

/-! ## Helper lemmas -/

lemma poisson_pmf_zero (k : ℤ) (hk : 1 ≤ k) : poisson_pmf k 0 = 0 := by
  unfold poisson_pmf
  rw [if_neg (by omega), zero_pow (by omega)]
  simp

lemma transcriptome_size_go (ts : List Gene) (w acc : ℤ) :
    ts.foldl (fun acc tx =>
        acc + ((tx.exons.getLastI).stop - (tx.exons.headI).start - w + 1)) acc
      = acc + (ts.map (fun tx =>
          ((tx.exons.getLastI).stop - (tx.exons.headI).start + 1) - w)).sum := by
  induction ts generalizing acc with
  | nil => simp
  | cons t rest ih => simp [ih]; ring

lemma cigar_midpoint_go_no_match (read_half : ℚ) (cigar : List (ℕ × ℕ)) :
    (∀ p ∈ cigar, p.1 ≠ 0 ∧ p.1 ≠ 7 ∧ p.1 ≠ 8) →
    ∀ gp rw, cigar_midpoint_go read_half cigar gp rw = none := by
  induction cigar with
  | nil => intro _ gp rw; rfl
  | cons hd tl ih =>
    intro h gp rw
    obtain ⟨h0, h7, h8⟩ := h hd (List.mem_cons_self hd tl)
    have htl := fun p hp => h p (List.mem_cons_of_mem hd hp)
    obtain ⟨op, len⟩ := hd
    simp only [cigar_midpoint_go]
    rw [if_neg (by simp_all)]
    split
    · exact ih htl _ _
    · split
      · exact ih htl _ _
      · exact ih htl _ _

lemma add_exon_inv (g : Gene) (s e : ℤ) (hse : s ≤ e) (h : exonInv g.exons) :
    exonInv (g.add_exon s e).exons := by
  obtain ⟨hp, hb⟩ := h
  unfold Gene.add_exon
  have hmemgoal : ∀ ex ∈ g.exons ++ [Exon.mk s e], ex.start ≤ ex.stop := by
    intro ex hex
    rcases List.mem_append.mp hex with h1 | h2
    · exact hb ex h1
    · simp only [List.mem_singleton] at h2
      subst h2
      exact hse
  cases hl : g.exons.getLast? with
  | none =>
    rw [List.getLast?_eq_none_iff] at hl
    rw [hl]
    exact ⟨by simp [List.pairwise_cons], by
      intro ex hex
      simp only [hl] at hmemgoal
      exact hmemgoal ex (by simpa using hex)⟩
  | some lastE =>
    dsimp only
    by_cases hcond : s < lastE.stop
    · rw [if_pos hcond]
      refine ⟨List.sorted_insertionSort exonKey _, ?_⟩
      intro ex hex
      exact hmemgoal ex ((List.perm_insertionSort exonKey _).mem_iff.mp hex)
    · rw [if_neg hcond]
      push_neg at hcond
      refine ⟨?_, hmemgoal⟩
      rw [List.pairwise_append]
      refine ⟨hp, List.pairwise_singleton _ _, ?_⟩
      intro a ha b hbmem
      simp only [List.mem_singleton] at hbmem
      subst hbmem
      show a.start ≤ s
      have hls : lastE.start ≤ lastE.stop := hb lastE (List.mem_of_getLast?_eq_some hl)
      obtain ⟨ys, hys⟩ := List.getLast?_eq_some_iff.mp hl
      rw [hys] at ha hp
      rcases List.mem_append.mp ha with ha' | ha''
      · have hrel : a.start ≤ lastE.start :=
          (List.pairwise_append.mp hp).2.2 a ha' lastE (by simp)
        linarith
      · simp only [List.mem_singleton] at ha''
        subst ha''
        linarith

lemma add_exon_foldl_inv (calls : List (ℤ × ℤ)) :
    ∀ g : Gene, (∀ c ∈ calls, c.1 ≤ c.2) → exonInv g.exons →
      exonInv ((calls.foldl (fun g c => g.add_exon c.1 c.2) g).exons) := by
  induction calls with
  | nil => intro g _ hg; simpa using hg
  | cons c rest ih =>
    intro g h hg
    simp only [List.foldl_cons]
    exact ih _ (fun c' hc' => h c' (List.mem_cons_of_mem c hc'))
      (add_exon_inv g c.1 c.2 (h c (List.mem_cons_self c rest)) hg)

lemma advanceWhile_eq {α : Type} (xs : List α) (p : α → Bool) (i : ℕ) :
    advanceWhile xs p i = if h : i < xs.length then
      (if p xs[i] then advanceWhile xs p (i + 1) else i) else i := by
  unfold advanceWhile
  by_cases h : i < xs.length
  · rw [dif_pos h, List.drop_eq_getElem_cons h]
    rfl
  · rw [dif_neg h, List.drop_eq_nil_of_le (by omega)]
    rfl

lemma advanceWhile_le_aux {α : Type} (xs : List α) (p : α → Bool) (j : ℕ) (hj : j < xs.length)
    (hpj : p xs[j] = false) :
    ∀ d i, j - i ≤ d → i ≤ j → advanceWhile xs p i ≤ j := by
  intro d
  induction d with
  | zero =>
    intro i hd hij
    have hij' : i = j := by omega
    subst hij'
    rw [advanceWhile_eq, dif_pos hj]
    rw [if_neg (by simp [hpj])]
  | succ d ih =>
    intro i hd hij
    by_cases hij' : i = j
    · subst hij'
      rw [advanceWhile_eq, dif_pos hj]
      rw [if_neg (by simp [hpj])]
    · have hi : i < j := lt_of_le_of_ne hij hij'
      have hilen : i < xs.length := lt_trans hi hj
      rw [advanceWhile_eq, dif_pos hilen]
      by_cases hp : p xs[i]
      · rw [if_pos hp]
        exact ih (i + 1) (by omega) (by omega)
      · rw [if_neg hp]
        exact le_of_lt hi

lemma advanceWhile_le {α : Type} (xs : List α) (p : α → Bool) (j : ℕ) (hj : j < xs.length)
    (hpj : p xs[j] = false) (i : ℕ) (hij : i ≤ j) :
    advanceWhile xs p i ≤ j :=
  advanceWhile_le_aux xs p j hj hpj (j - i) i le_rfl hij

lemma count_windows_go_length (w : ℤ) (fe fp : ℝ) (mid : List ℚ) (jn : List ℤ) (tr T : ℤ)
    (jm : ℕ) (hjm : jm < mid.length) :
    ∀ (starts : List ℤ) (mws mwe ji : ℕ),
      (∀ ws ∈ starts, ((ws : ℚ) ≤ mid.get ⟨jm, hjm⟩)) → mws ≤ jm →
      (count_windows_go w fe fp mid jn tr T starts mws mwe ji).length = starts.length := by
  intro starts
  induction starts with
  | nil => intro mws mwe ji _ _; simp [count_windows_go]
  | cons ws rest ih =>
    intro mws mwe ji hws hmws
    have hws0 : ((ws : ℚ)) ≤ mid.get ⟨jm, hjm⟩ := hws ws (List.mem_cons_self ws rest)
    have hpj : decide (mid[jm] < (ws : ℚ)) = false := by
      simp only [decide_eq_false_iff_not, not_lt]
      simpa [List.get_eq_getElem] using hws0
    have hle := advanceWhile_le mid (fun m => decide (m < (ws : ℚ))) jm hjm hpj mws hmws
    simp only [count_windows_go]
    rw [if_neg (by omega)]
    have hrest : ∀ ws' ∈ rest, ((ws' : ℚ) ≤ mid.get ⟨jm, hjm⟩) :=
      fun ws' h => hws ws' (List.mem_cons_of_mem ws h)
    split
    · simp [ih _ _ _ hrest hle]
    · simp [ih _ _ _ hrest hle]

/-! ## Claim C1 -/

/-- C1 counterexample: the claim predicts that `scan_stat_approx3` with
`lambda = 0` returns a p-value approximately 1 (never significant).  At the
concrete input `k = 5, w = 10, T = 100, lambda = 0` the code returns exactly
0 — maximally significant, nowhere near 1: `p = 1 - exp(-sigma)` vanishes as
`sigma` vanishes. -/
theorem scan_stat_lambda_zero_significant :
    scan_stat_approx3 5 10 100 0 = 0 ∧ scan_stat_approx3 5 10 100 0 < 1 / 2 := by
  have hp : poisson_pmf 5 ((0 : ℝ) * ((10 : ℤ) : ℝ)) = 0 := by
    rw [zero_mul]; exact poisson_pmf_zero 5 (by norm_num)
  have hs : scan_stat_sigma 5 10 100 0 = 0 := by
    unfold scan_stat_sigma; rw [hp, mul_zero]
  have h0 : scan_stat_approx3 5 10 100 0 = 0 := by
    unfold scan_stat_approx3; rw [hs]; simp
  exact ⟨h0, by rw [h0]; norm_num⟩

/-- C1 (amended): for every observed count `k ≥ 1`, window size `w ≥ 1`, and
test count `T`, calling `scan_stat_approx3` with expected rate `lambda = 0`
yields `sigma = 0` exactly and a p-value of exactly 0 (always significant,
the reverse of the claimed "approximately 1, never significant") — a
consequence of the formula alone, with no special-casing. -/
theorem scan_stat_lambda_zero (k w T : ℤ) (hk : 1 ≤ k) (hw : 1 ≤ w) :
    scan_stat_sigma k w T 0 = 0 ∧ scan_stat_approx3 k w T 0 = 0 := by
  have hp : poisson_pmf k ((0 : ℝ) * (w : ℝ)) = 0 := by
    rw [zero_mul]; exact poisson_pmf_zero k hk
  have hs : scan_stat_sigma k w T 0 = 0 := by
    unfold scan_stat_sigma; rw [hp, mul_zero]
  refine ⟨hs, ?_⟩
  unfold scan_stat_approx3
  rw [hs]
  simp

/-- C1 witness: the amended theorem applied at `k = 5, w = 10, T = 100`. -/
theorem scan_stat_lambda_zero_witness :
    (1 : ℤ) ≤ 5 ∧ (1 : ℤ) ≤ 10 ∧
      (scan_stat_sigma 5 10 100 0 = 0 ∧ scan_stat_approx3 5 10 100 0 = 0) :=
  ⟨by norm_num, by norm_num, scan_stat_lambda_zero 5 10 100 (by norm_num) (by norm_num)⟩

/-! ## Claim C2 -/

/-- C2 counterexample: the single-exon transcript spans [1,10]; with window
size 5 the claim predicts one (count, p-value) pair for every window start
from 1 to 10 - 5 + 1 = 6 inclusive (6 pairs).  With a midpoint at 10 (at or
beyond every window start, so the early-stop rule never fires) the code
produces only 5 pairs: `range(gene_start, gene_end - w + 1)` stops at start
position `gene_end - w = 5`, never testing the final window [6,10]. -/
theorem count_windows_missing_last_window :
    (count_windows 5 txSingle [(10 : ℚ)] [] 100 5).length = 5 ∧ (5 : ℕ) ≠ 6 := by
  constructor
  · decide
  · decide

/-- C2 (amended): for every transcript, window size `w`, and midpoint
sequence containing a midpoint at or beyond the last scanned window start
`span_end - w` (so the early stop never fires), `count_windows` returns one
(count, p-value) pair for every window start from `span_start` to
`span_end - w` inclusive — one short of the claimed `span_end - w + 1`. -/
theorem count_windows_length (w : ℤ) (tx : Gene) (mid : List ℚ) (jn : List ℤ) (tr T : ℤ)
    (hmid : ∃ m ∈ mid, ((((tx.exons.getLastI).stop - w : ℤ)) : ℚ) ≤ m) :
    (count_windows w tx mid jn tr T).length
      = ((tx.exons.getLastI).stop - w + 1 - (tx.exons.headI).start).toNat := by
  obtain ⟨m, hm, hbound⟩ := hmid
  obtain ⟨⟨jm, hjm⟩, rfl⟩ := List.mem_iff_get.mp hm
  unfold count_windows
  rw [count_windows_go_length w tx.fpkm_exon tx.fpkm_pre mid jn tr T jm hjm _ 0 0 0
    ?_ (Nat.zero_le jm)]
  · simp only [window_starts, List.length_map, List.length_range]
  · intro ws hws
    simp only [window_starts, List.mem_map, List.mem_range] at hws
    obtain ⟨j, hj, rfl⟩ := hws
    have hwsle : (tx.exons.headI).start + (j : ℤ) ≤ (tx.exons.getLastI).stop - w := by
      omega
    calc (((tx.exons.headI).start + (j : ℤ) : ℤ) : ℚ)
        ≤ (((tx.exons.getLastI).stop - w : ℤ) : ℚ) := by exact_mod_cast hwsle
      _ ≤ mid.get ⟨jm, hjm⟩ := hbound

/-- C2 witness: the amended theorem applied to the transcript spanning
[1,20] with window size 5 and one midpoint at 16 ≥ 20 - 5; the scan emits
15 = 20 - 5 + 1 - 1 pairs. -/
theorem count_windows_length_witness :
    (count_windows 5 txLong [(16 : ℚ)] [] 100 5).length = 15 := by
  have h := count_windows_length 5 txLong [(16 : ℚ)] [] 100 5
    ⟨16, by decide, by decide⟩
  rw [h]
  decide

/-! ## Claim C3 -/

/-- C3 counterexample: for the single transcript spanning [1,10] and window
size 5, `transcriptome_size` returns `10 - 1 - 5 + 1 = 5`, but the claim's
formula `span_length - w + 1 = (10 - 1 + 1) - 5 + 1` gives 6. -/
theorem transcriptome_size_counterexample :
    transcriptome_size [txSingle] 5 = 5 ∧ (5 : ℤ) ≠ (10 - 1 + 1) - 5 + 1 := by
  constructor
  · rfl
  · decide

/-- C3 (amended): `transcriptome_size` returns the sum over transcripts of
`span_length - w` (not `span_length - w + 1` as claimed), where
`span_length = last exon end - first exon start + 1`. -/
theorem transcriptome_size_eq_sum (ts : List Gene) (w : ℤ) :
    transcriptome_size ts w
      = (ts.map (fun tx =>
          (((tx.exons.getLastI).stop - (tx.exons.headI).start + 1) - w))).sum := by
  unfold transcriptome_size
  rw [transcriptome_size_go]
  ring

/-! ## Claim C4 -/

/-- C4 counterexample: with exonic rate 1000, pre-mRNA rate 0, one million
total reads, junctions `[11, 21]`, and the interval [2,5] inside the first
exon (junction index 0), the code returns 1 — the per-base rate
`fe/1000 * (reads/1e6)` — whereas the claim's formula
`(b-a+1)/1000 * fe * (reads/1e6)` gives 4: the interval-length factor
is absent from `convolute_lambda` (the window length enters later as
`psi = lambda * w` inside `scan_stat_approx3`). -/
theorem convolute_lambda_counterexample :
    convolute_lambda 2 5 1000 0 1000000 [11, 21] 0 = 1 ∧
      ((5 - 2 + 1 : ℝ) / 1000) * 1000 * ((1000000 : ℝ) / 1000000) = 4 ∧ (1 : ℝ) ≠ 4 := by
  refine ⟨?_, by norm_num, by norm_num⟩
  unfold convolute_lambda
  norm_num

/-- C4 (amended): for an interval `[a,b]` entirely within a single exon of a
transcript with pre-mRNA rate 0 (junction index past all junctions, or even
with the next junction strictly beyond `b`), `convolute_lambda` returns
exactly `fe / 1000 * (total_reads / 1e6)` — the per-base expected rate,
with no interval-length factor. -/
theorem convolute_lambda_single_exon (a b : ℤ) (fe : ℝ) (tr : ℤ)
    (junctions : List ℤ) (ji : ℕ)
    (h : junctions.length ≤ ji ∨
      (ji < junctions.length ∧ b < junctions.getD ji 0 ∧ ji % 2 = 0)) :
    convolute_lambda a b fe 0 tr junctions ji = fe / 1000 * ((tr : ℝ) / 1000000) := by
  unfold convolute_lambda
  rcases h with h1 | ⟨h1, h2, h3⟩
  · rw [if_pos h1, add_zero]
  · rw [if_neg (by omega), if_pos h2, if_pos h3, add_zero]

/-- C4 witness: the amended theorem applied at the concrete interval [2,5]
inside the first exon of a transcript with junctions `[11, 21]`. -/
theorem convolute_lambda_single_exon_witness :
    (([11, 21] : List ℤ).length ≤ 0 ∨
      (0 < ([11, 21] : List ℤ).length ∧ (5 : ℤ) < ([11, 21] : List ℤ).getD 0 0 ∧
        0 % 2 = 0)) ∧
    convolute_lambda 2 5 3 0 1000 [11, 21] 0 = 3 / 1000 * ((1000 : ℤ) : ℝ) / 1000000 := by
  refine ⟨Or.inr (by decide), ?_⟩
  rw [convolute_lambda_single_exon 2 5 3 1000 [11, 21] 0 (Or.inr (by decide))]
  ring

/-! ## Claim C5 -/

/-- C5 counterexample: with window size 1, `T = 2` and `lambda = 10` (so
`psi = 10`, `L = 2`), the p-value increases when the observed count rises
from 2 to 3, refuting "p-value is non-increasing in k for all k ≥ 1". -/
theorem scan_stat_not_monotone :
    scan_stat_approx3 2 1 2 10 < scan_stat_approx3 3 1 2 10 := by
  unfold scan_stat_approx3
  have key : scan_stat_sigma 2 1 2 10 < scan_stat_sigma 3 1 2 10 := by
    unfold scan_stat_sigma poisson_pmf
    norm_num [Nat.factorial, show ((2 : ℤ).toNat) = 2 from rfl,
      show ((3 : ℤ).toNat) = 3 from rfl]
    nlinarith [Real.exp_pos (-(10 : ℝ))]
  have := Real.exp_lt_exp.2 (neg_lt_neg key)
  linarith

/-- C5 (amended): holding `w`, `T` and `lambda` fixed (with `w ≤ T`,
`lambda ≥ 0`), the p-value of `scan_stat_approx3` is non-increasing from
count `k` to `k+1` whenever `psi = lambda*w ≤ k - 1`, i.e. on the right tail
where the observed count exceeds the expected count; below the Poisson mode
it can increase (see the counterexample). -/
theorem scan_stat_monotone_step (k w T : ℤ) (lambd : ℝ) (hk : 1 ≤ k) (hw : 1 ≤ w)
    (hT : (w : ℝ) ≤ (T : ℝ)) (hl : 0 ≤ lambd)
    (hpsi : lambd * (w : ℝ) ≤ (k : ℝ) - 1) :
    scan_stat_approx3 (k + 1) w T lambd ≤ scan_stat_approx3 k w T lambd := by
  have hsig : scan_stat_sigma (k + 1) w T lambd ≤ scan_stat_sigma k w T lambd := by
    unfold scan_stat_sigma poisson_pmf
    rw [if_neg (by omega), if_neg (by omega)]
    set psi := lambd * (w : ℝ) with hpsidef
    have hw0 : (0 : ℝ) < (w : ℝ) := by exact_mod_cast hw
    have hL : (1 : ℝ) ≤ (T : ℝ) / (w : ℝ) := (one_le_div hw0).2 hT
    have hpsi0 : 0 ≤ psi := mul_nonneg hl (le_of_lt hw0)
    have hn : (k + 1).toNat = k.toNat + 1 := by omega
    rw [hn]
    have hkR : (1 : ℝ) ≤ (k : ℝ) := by exact_mod_cast hk
    set n := k.toNat with hndef
    have hnZ : (n : ℤ) = k := by omega
    have hnR : ((n : ℝ)) = (k : ℝ) := by exact_mod_cast hnZ
    rw [pow_succ, Nat.factorial_succ]
    push_cast
    have hfac : (0 : ℝ) < (Nat.factorial n : ℝ) := by positivity
    have hexp : (0 : ℝ) < Real.exp (-psi) := Real.exp_pos _
    have hC : 0 ≤ ((T : ℝ) / (w : ℝ) - 1) := by linarith
    have hpow : (0 : ℝ) ≤ psi ^ n := pow_nonneg hpsi0 n
    have key : ((k : ℝ) + 1 - 1) *
        (Real.exp (-psi) * (psi ^ n * psi) / (((n : ℝ) + 1) * (Nat.factorial n : ℝ)))
        ≤ ((k : ℝ) - 1) * (Real.exp (-psi) * psi ^ n / (Nat.factorial n : ℝ)) := by
      rw [← mul_div_assoc, ← mul_div_assoc]
      rw [div_le_div_iff₀ (by positivity) (by positivity)]
      have h1 : ((k : ℝ) + 1 - 1) * (Real.exp (-psi) * (psi ^ n * psi)) *
            (Nat.factorial n : ℝ)
          = (Real.exp (-psi) * psi ^ n * (Nat.factorial n : ℝ)) * ((k : ℝ) * psi) := by
        ring
      have h2 : ((k : ℝ) - 1) * (Real.exp (-psi) * psi ^ n) *
            (((n : ℝ) + 1) * (Nat.factorial n : ℝ))
          = (Real.exp (-psi) * psi ^ n * (Nat.factorial n : ℝ)) *
            (((k : ℝ) - 1) * ((n : ℝ) + 1)) := by
        ring
      rw [h1, h2, hnR]
      exact mul_le_mul_of_nonneg_left (by nlinarith) (by positivity)
    calc ((k : ℝ) + 1 - 1) * ((T : ℝ) / (w : ℝ) - 1) *
          (Real.exp (-psi) * (psi ^ n * psi) / (((n : ℝ) + 1) * (Nat.factorial n : ℝ)))
        = ((T : ℝ) / (w : ℝ) - 1) * (((k : ℝ) + 1 - 1) *
            (Real.exp (-psi) * (psi ^ n * psi) /
              (((n : ℝ) + 1) * (Nat.factorial n : ℝ)))) := by ring
      _ ≤ ((T : ℝ) / (w : ℝ) - 1) * (((k : ℝ) - 1) *
            (Real.exp (-psi) * psi ^ n / (Nat.factorial n : ℝ))) :=
          mul_le_mul_of_nonneg_left key hC
      _ = ((k : ℝ) - 1) * ((T : ℝ) / (w : ℝ) - 1) *
            (Real.exp (-psi) * psi ^ n / (Nat.factorial n : ℝ)) := by ring
  unfold scan_stat_approx3
  have := Real.exp_le_exp.2 (neg_le_neg hsig)
  linarith

/-- C5 witness: the amended monotonicity step applied at
`k = 5, w = 1, T = 2, lambda = 1` (so `psi = 1 ≤ k - 1 = 4`). -/
theorem scan_stat_monotone_step_witness :
    (1 : ℤ) ≤ 5 ∧ (1 : ℤ) ≤ 1 ∧ (((1 : ℤ) : ℝ) ≤ ((2 : ℤ) : ℝ)) ∧ ((0 : ℝ) ≤ 1) ∧
      ((1 : ℝ) * ((1 : ℤ) : ℝ) ≤ ((5 : ℤ) : ℝ) - 1) ∧
      scan_stat_approx3 (5 + 1) 1 2 1 ≤ scan_stat_approx3 5 1 2 1 :=
  ⟨by norm_num, by norm_num, by norm_num, by norm_num, by norm_num,
    scan_stat_monotone_step 5 1 2 1 (by norm_num) (by norm_num) (by norm_num)
      (by norm_num) (by norm_num)⟩

/-! ## Claim C7 -/

/-- C7 (confirmed): `merge_windows` on the window-statistic sequence
`[(5,0.0001),(4,0.0002),(1,0.5),(6,0.00005)]` with threshold 0.001, window
size 10, gap tolerance 1 and gene start 1000 returns exactly one merged
span, the genomic interval [1000, 1012]. -/
theorem merge_windows_example :
    merge_windows [(5, 0.0001), (4, 0.0002), (1, 0.5), (6, 0.00005)] 10 0.001 1000 1
      = [(1000, 1012)] := by
  norm_num [merge_windows, merge_go, Option.getD]

/-! ## Claim C8 -/

/-- C8 (confirmed): starting from a fresh `Gene`, any sequence of `add_exon`
calls with well-formed intervals (`end ≥ start`) leaves the exon list sorted
ascending by start — the conditional re-sort in `add_exon` suffices. -/
theorem add_exon_sorted (calls : List (ℤ × ℤ)) (h : ∀ c ∈ calls, c.1 ≤ c.2) :
    ((calls.foldl (fun g c => g.add_exon c.1 c.2) gene_empty).exons).Pairwise exonKey :=
  (add_exon_foldl_inv calls gene_empty h ⟨List.Pairwise.nil, by simp [gene_empty]⟩).1

/-- C8 witness: the sortedness theorem applied to the concrete call sequence
`add_exon 5 6; add_exon 3 10` (which triggers the conditional re-sort). -/
theorem add_exon_sorted_witness :
    (∀ c ∈ [((5 : ℤ), (6 : ℤ)), (3, 10)], c.1 ≤ c.2) ∧
      (([((5 : ℤ), (6 : ℤ)), (3, 10)].foldl
          (fun g c => g.add_exon c.1 c.2) gene_empty).exons).Pairwise exonKey :=
  ⟨by decide, add_exon_sorted [(5, 6), (3, 10)] (by decide)⟩

/-! ## Claim C9 -/

/-- C9 counterexample: the read at position 100 with query length 20 and
CIGAR `[(2,8),(0,3)]` has only 3 match-class bases — far below half the read
length (10) — yet `cigar_midpoint` returns the defined coordinate 102,
because deletions (operation 2) also advance the `read_walked` counter.
The claimed precondition ("some prefix accumulates match-class bases
totalling at least half the read length") is therefore not necessary. -/
theorem cigar_midpoint_counterexample :
    cigar_midpoint 100 20 [(2, 8), (0, 3)] = some 102 ∧
      2 * match_class_bases [(2, 8), (0, 3)] < 20 := by
  constructor
  · unfold cigar_midpoint
    norm_num [cigar_midpoint_go]
  · decide

/-- C9 (amended): `cigar_midpoint` leaves its result unassigned (evaluation
fails) for any read whose CIGAR contains no match-class (0/7/8) operation at
all; but match-class bases alone reaching half the read length is not
required for a defined result, since deletion-class bases also advance the
walk's read counter (see the counterexample). -/
theorem cigar_midpoint_no_match (pos : ℤ) (qlen : ℕ) (cigar : List (ℕ × ℕ))
    (h : ∀ p ∈ cigar, p.1 ≠ 0 ∧ p.1 ≠ 7 ∧ p.1 ≠ 8) :
    cigar_midpoint pos qlen cigar = none :=
  cigar_midpoint_go_no_match _ cigar h _ _

/-- C9 witness: a CIGAR of insertions, splices and deletions only. -/
theorem cigar_midpoint_no_match_witness :
    (∀ p ∈ [((1 : ℕ), (5 : ℕ)), (3, 10), (2, 4)], p.1 ≠ 0 ∧ p.1 ≠ 7 ∧ p.1 ≠ 8) ∧
      cigar_midpoint 0 20 [(1, 5), (3, 10), (2, 4)] = none :=
  ⟨by decide, cigar_midpoint_no_match 0 20 [(1, 5), (3, 10), (2, 4)] (by decide)⟩

lemma countP_lt_length {α : Type} (xs : List α) (p : α → Bool) (m : α) (hm : m ∈ xs)
    (hpm : p m = false) : xs.countP p < xs.length := by
  rcases lt_or_eq_of_le (List.countP_le_length (p := p) (l := xs)) with h | h
  · exact h
  · exfalso
    have := List.countP_eq_length.mp h m hm
    simp [hpm] at this

lemma sorted_le_getD_bl (xs : List ℚ) (x : ℚ) :
    xs.Pairwise (· ≤ ·) → xs.countP (fun m => decide (m < x)) < xs.length →
      x ≤ xs.getD (xs.countP (fun m => decide (m < x))) 0 := by
  induction xs with
  | nil => intro _ h; simp at h
  | cons a t ih =>
    intro hs h
    rw [List.countP_cons] at h ⊢
    by_cases ha : a < x
    · have h2 : t.countP (fun m => decide (m < x)) < t.length := by
        simp only [ha, decide_eq_true_eq, if_pos] at h
        simp at h
        omega
      have := ih hs.of_cons h2
      simpa [ha] using this
    · have hct : t.countP (fun m => decide (m < x)) = 0 := by
        rw [List.countP_eq_zero]
        intro b hb
        have hab : a ≤ b := (List.pairwise_cons.mp hs).1 b hb
        simp only [decide_eq_true_eq]
        push_neg at ha
        exact not_lt.mpr (le_trans ha hab)
      simp only [hct, ha]
      simpa using le_of_not_lt ha

lemma sorted_getD_le_br (xs : List ℚ) (x : ℚ) :
    xs.Pairwise (· ≤ ·) → ∀ n, n < xs.length →
      n < xs.countP (fun m => decide (m ≤ x)) → xs.getD n 0 ≤ x := by
  induction xs with
  | nil => intro _ n hn; simp at hn
  | cons a t ih =>
    intro hs n hn h
    rw [List.countP_cons] at h
    by_cases hax : a ≤ x
    · cases n with
      | zero => simpa using hax
      | succ n =>
        have := ih hs.of_cons n (by simpa using hn) (by simp [hax] at h; omega)
        simpa using this
    · exfalso
      have hct : t.countP (fun m => decide (m ≤ x)) = 0 := by
        rw [List.countP_eq_zero]
        intro b hb
        have hab : a ≤ b := (List.pairwise_cons.mp hs).1 b hb
        simp only [decide_eq_true_eq]
        intro hbx
        exact hax (le_trans hab hbx)
      simp [hct, hax] at h

lemma sorted_getD_mono (xs : List ℚ) (hs : xs.Pairwise (· ≤ ·)) (a b : ℕ) (hab : a ≤ b)
    (hb : b < xs.length) : xs.getD a 0 ≤ xs.getD b 0 := by
  rw [List.getD_eq_getElem xs 0 (lt_of_le_of_lt hab hb), List.getD_eq_getElem xs 0 hb]
  have hsorted : List.Sorted (· ≤ ·) xs := hs
  have := hsorted.rel_get_of_le
    (a := ⟨a, lt_of_le_of_lt hab hb⟩) (b := ⟨b, hb⟩) hab
  simpa [List.get_eq_getElem] using this

lemma countP_le_split (xs : List ℚ) (a b : ℚ) (hab : a ≤ b) :
    xs.countP (fun m => decide (m ≤ b))
      = xs.countP (fun m => decide (m < a))
        + xs.countP (fun m => decide (a ≤ m ∧ m ≤ b)) := by
  induction xs with
  | nil => simp
  | cons m t ih =>
    simp only [List.countP_cons]
    rw [ih]
    have hsplit_elt : (if decide (m ≤ b) = true then (1 : ℕ) else 0)
        = (if decide (m < a) = true then (1 : ℕ) else 0)
          + (if decide (a ≤ m ∧ m ≤ b) = true then (1 : ℕ) else 0) := by
      by_cases h1 : m < a
      · have h2 : m ≤ b := le_of_lt (lt_of_lt_of_le h1 hab)
        have h3 : ¬(a ≤ m ∧ m ≤ b) := fun hc => absurd h1 (not_lt.mpr hc.1)
        simp [h1, h2, h3]
      · by_cases h2 : m ≤ b
        · have h3 : a ≤ m ∧ m ≤ b := ⟨le_of_not_lt h1, h2⟩
          simp [h1, h2, h3]
        · have h3 : ¬(a ≤ m ∧ m ≤ b) := fun hc => h2 hc.2
          simp [h1, h2, h3]
    rw [hsplit_elt]
    omega

lemma le_pyInt (z : ℤ) (q : ℚ) (hq : 0 ≤ q) (h : (z : ℚ) ≤ q) : z ≤ pyInt q := by
  unfold pyInt
  rw [if_neg (not_lt.mpr hq)]
  exact Int.le_floor.mpr h

lemma pyInt_le (q : ℚ) (z : ℤ) (hq : 0 ≤ q) (h : q < (z : ℚ) + 1) : pyInt q ≤ z := by
  unfold pyInt
  rw [if_neg (not_lt.mpr hq)]
  rw [Int.floor_le_iff]
  exact_mod_cast h

lemma pyInt_mono (q q2 : ℚ) (hq : 0 ≤ q) (h : q ≤ q2) : pyInt q ≤ pyInt q2 := by
  unfold pyInt
  rw [if_neg (not_lt.mpr hq), if_neg (not_lt.mpr (le_trans hq h))]
  exact Int.floor_mono h

lemma pyIndex_nat (xs : List ℚ) (i : ℕ) (h : i < xs.length) :
    pyIndex xs (i : ℤ) = some (xs.getD i 0) := by
  unfold pyIndex
  rw [if_pos ⟨Int.ofNat_nonneg i, by exact_mod_cast h⟩, Int.toNat_ofNat]

lemma trim_one_eq (mid : List ℚ) (ws we : ℤ)
    (hs : mid.Pairwise (· ≤ ·)) (hnn : ∀ m ∈ mid, 0 ≤ m)
    (hex : ∃ m ∈ mid, (ws : ℚ) ≤ m ∧ m ≤ (we : ℚ)) :
    trim_one mid ws we = some (pyInt (mid.getD (bisect_left mid (ws : ℚ)) 0),
        pyInt (mid.getD (bisect_right mid (we : ℚ) - 1) 0 + 1/2),
        (mid.countP (fun m => decide ((ws : ℚ) ≤ m ∧ m ≤ (we : ℚ))) : ℤ))
      ∧ ws ≤ pyInt (mid.getD (bisect_left mid (ws : ℚ)) 0)
      ∧ pyInt (mid.getD (bisect_left mid (ws : ℚ)) 0)
          ≤ pyInt (mid.getD (bisect_right mid (we : ℚ) - 1) 0 + 1/2)
      ∧ pyInt (mid.getD (bisect_right mid (we : ℚ) - 1) 0 + 1/2) ≤ we
      ∧ 1 ≤ (mid.countP (fun m => decide ((ws : ℚ) ≤ m ∧ m ≤ (we : ℚ))) : ℤ) := by
  obtain ⟨m, hm, hm1, hm2⟩ := hex
  have hab : (ws : ℚ) ≤ (we : ℚ) := le_trans hm1 hm2
  have hsplit : bisect_right mid (we : ℚ)
      = bisect_left mid (ws : ℚ)
        + mid.countP (fun m => decide ((ws : ℚ) ≤ m ∧ m ≤ (we : ℚ))) :=
    countP_le_split mid (ws : ℚ) (we : ℚ) hab
  have hcin_pos : 0 < mid.countP (fun m => decide ((ws : ℚ) ≤ m ∧ m ≤ (we : ℚ))) :=
    List.countP_pos_iff.mpr ⟨m, hm, by simp [hm1, hm2]⟩
  have hbr_eq : bisect_right mid (we : ℚ)
      = mid.countP (fun m => decide (m ≤ (we : ℚ))) := rfl
  have hi_lt : bisect_left mid (ws : ℚ) < mid.length :=
    countP_lt_length mid _ m hm (by simp [not_lt.mpr hm1])
  have hj_le : bisect_right mid (we : ℚ) ≤ mid.length := List.countP_le_length _
  have hj1_lt : bisect_right mid (we : ℚ) - 1 < mid.length := by omega
  have hpi : pyIndex mid (bisect_left mid (ws : ℚ) : ℤ)
      = some (mid.getD (bisect_left mid (ws : ℚ)) 0) := pyIndex_nat mid _ hi_lt
  have hpj : pyIndex mid ((bisect_right mid (we : ℚ) : ℤ) - 1)
      = some (mid.getD (bisect_right mid (we : ℚ) - 1) 0) := by
    have hcast : (bisect_right mid (we : ℚ) : ℤ) - 1
        = ((bisect_right mid (we : ℚ) - 1 : ℕ) : ℤ) := by omega
    rw [hcast]
    exact pyIndex_nat mid _ hj1_lt
  have hx_i_mem : mid.getD (bisect_left mid (ws : ℚ)) 0 ∈ mid := by
    rw [List.getD_eq_getElem mid 0 hi_lt]
    exact List.getElem_mem hi_lt
  have hx_j_mem : mid.getD (bisect_right mid (we : ℚ) - 1) 0 ∈ mid := by
    rw [List.getD_eq_getElem mid 0 hj1_lt]
    exact List.getElem_mem hj1_lt
  have hx_i_nn : 0 ≤ mid.getD (bisect_left mid (ws : ℚ)) 0 := hnn _ hx_i_mem
  have hx_j_nn : 0 ≤ mid.getD (bisect_right mid (we : ℚ) - 1) 0 := hnn _ hx_j_mem
  have hws_le : (ws : ℚ) ≤ mid.getD (bisect_left mid (ws : ℚ)) 0 :=
    sorted_le_getD_bl mid (ws : ℚ) hs hi_lt
  have hle_we : mid.getD (bisect_right mid (we : ℚ) - 1) 0 ≤ (we : ℚ) :=
    sorted_getD_le_br mid (we : ℚ) hs _ hj1_lt (by omega)
  have hmono : mid.getD (bisect_left mid (ws : ℚ)) 0
      ≤ mid.getD (bisect_right mid (we : ℚ) - 1) 0 :=
    sorted_getD_mono mid hs _ _ (by omega) hj1_lt
  refine ⟨?_, ?_, ?_, ?_, ?_⟩
  · unfold trim_one
    rw [hpi, hpj]
    have hcount : (bisect_right mid (we : ℚ) : ℤ) - (bisect_left mid (ws : ℚ) : ℤ)
        = (mid.countP (fun m => decide ((ws : ℚ) ≤ m ∧ m ≤ (we : ℚ))) : ℤ) := by omega
    rw [hcount]
  · exact le_pyInt ws _ hx_i_nn hws_le
  · exact pyInt_mono _ _ hx_i_nn (by linarith)
  · exact pyInt_le _ we (by linarith) (by push_cast; linarith)
  · exact_mod_cast hcin_pos

/-! ## Claim C10 -/

/-- C10 (confirmed): for sorted, non-negative read midpoints and any merged
window span [wstart, wend]: if the span contains at least one midpoint, the
trimming step indexes in bounds and returns a trimmed interval [first, last]
with `wstart ≤ first ≤ last ≤ wend` and a count ≥ 1 equal to the number of
midpoints inside the span; if the span contains no midpoint, the lookup
either raises an IndexError (`none`) or selects midpoints outside the span,
reporting a non-positive count — nothing guards this case. -/
theorem trim_window_bounds (mid : List ℚ) (ws we : ℤ)
    (hs : mid.Pairwise (· ≤ ·)) (hnn : ∀ m ∈ mid, 0 ≤ m) :
    ((∃ m ∈ mid, (ws : ℚ) ≤ m ∧ m ≤ (we : ℚ)) →
      ∃ f l : ℤ,
        trim_one mid ws we = some (f, l,
          (mid.countP (fun m => decide ((ws : ℚ) ≤ m ∧ m ≤ (we : ℚ))) : ℤ))
        ∧ ws ≤ f ∧ f ≤ l ∧ l ≤ we
        ∧ 1 ≤ (mid.countP (fun m => decide ((ws : ℚ) ≤ m ∧ m ≤ (we : ℚ))) : ℤ))
    ∧ ((∀ m ∈ mid, ¬((ws : ℚ) ≤ m ∧ m ≤ (we : ℚ))) →
      trim_one mid ws we = none ∨
        ∃ f l c : ℤ, trim_one mid ws we = some (f, l, c) ∧ c ≤ 0) := by
  constructor
  · intro hex
    obtain ⟨heq, h1, h2, h3, h4⟩ := trim_one_eq mid ws we hs hnn hex
    exact ⟨_, _, heq, h1, h2, h3, h4⟩
  · intro hnone
    have hji : bisect_right mid (we : ℚ) ≤ bisect_left mid (ws : ℚ) := by
      apply List.countP_mono_left
      intro m hm hle
      simp only [decide_eq_true_eq] at hle ⊢
      by_contra hlt
      push_neg at hlt
      exact hnone m hm ⟨hlt, hle⟩
    unfold trim_one
    cases h1 : pyIndex mid (bisect_left mid (ws : ℚ) : ℤ) with
    | none => left; rfl
    | some v1 =>
      cases h2 : pyIndex mid ((bisect_right mid (we : ℚ) : ℤ) - 1) with
      | none => left; rfl
      | some v2 =>
        right
        exact ⟨pyInt v1, pyInt (v2 + 1/2), _, rfl, by omega⟩

/-- C10 witness: the theorem's in-span branch applied to midpoints
`[1, 3, 7]` and the span [2,5], which contains the midpoint 3. -/
theorem trim_window_bounds_witness :
    trim_one [(1 : ℚ), 3, 7] 2 5 = some (3, 3, 1) ∧ (2 : ℤ) ≤ 3 ∧ (3 : ℤ) ≤ 5 := by
  obtain ⟨f, l, heq, hf, hfl, hl, hc⟩ :=
    (trim_window_bounds [(1 : ℚ), 3, 7] 2 5 (by decide) (by decide)).1
      ⟨3, by decide, by decide, by decide⟩
  refine ⟨?_, by decide, by decide⟩
  norm_num [trim_one, bisect_left, bisect_right, pyIndex, pyInt,
    List.countP_cons, List.countP_nil]

lemma merge_go_bounds (sig_p : ℝ) (w g : ℤ) (gap : ℕ) :
    ∀ (stats : List (ℤ × ℝ)) (i : ℤ) (ps : Option ℤ) (insig : ℕ),
      0 ≤ i → (∀ s, ps = some s → 0 ≤ s ∧ s + (insig : ℤ) + 1 ≤ i) →
      ∀ ab ∈ merge_go sig_p w g gap stats i ps insig,
        g + ps.getD i ≤ ab.1 ∧ ab.1 + w - 1 ≤ ab.2 ∧
          ab.2 ≤ g + i + stats.length + w - 2 := by
  intro stats
  induction stats with
  | nil =>
    intro i ps insig hi hps ab hab
    cases ps with
    | none => simp [merge_go] at hab
    | some s =>
      simp only [merge_go, List.mem_singleton] at hab
      obtain ⟨h1, h2⟩ := hps s rfl
      subst hab
      refine ⟨by simp, ?_, ?_⟩
      · simp only []
        omega
      · simp only [List.length_nil]
        push_cast
        omega
  | cons cp rest ih =>
    intro i ps insig hi hps ab hab
    by_cases hp : cp.2 < sig_p
    · rw [merge_go.eq_def] at hab
      dsimp only at hab
      rw [if_pos hp] at hab
      have hinv : ∀ s, (some (ps.getD i) : Option ℤ) = some s →
          0 ≤ s ∧ s + ((0 : ℕ) : ℤ) + 1 ≤ i + 1 := by
        intro s hs
        injection hs with hs
        subst hs
        cases ps with
        | none => simp; omega
        | some s0 =>
          obtain ⟨h1, h2⟩ := hps s0 rfl
          simp
          omega
      have hres := ih (i + 1) (some (ps.getD i)) 0 (by omega) hinv ab hab
      refine ⟨?_, hres.2.1, ?_⟩
      · have := hres.1
        simp only [Option.getD_some] at this
        exact this
      · have := hres.2.2
        simp only [List.length_cons] at this ⊢
        push_cast at this ⊢
        omega
    · cases ps with
      | none =>
        rw [merge_go, if_neg hp] at hab
        have hres := ih (i + 1) none insig (by omega) (by simp) ab hab
        refine ⟨?_, hres.2.1, ?_⟩
        · have := hres.1
          simp only [Option.getD_none] at this ⊢
          omega
        · have := hres.2.2
          simp only [List.length_cons] at this ⊢
          push_cast at this ⊢
          omega
      | some s =>
        rw [merge_go, if_neg hp] at hab
        obtain ⟨h1, h2⟩ := hps s rfl
        by_cases hgap : gap < insig + 1
        · rw [if_pos hgap] at hab
          rcases List.mem_cons.mp hab with rfl | hab'
          · refine ⟨by simp, ?_, ?_⟩
            · simp only []
              omega
            · simp only [List.length_cons]
              push_cast
              omega
          · have hres := ih (i + 1) none 0 (by omega) (by simp) ab hab'
            refine ⟨?_, hres.2.1, ?_⟩
            · have := hres.1
              simp only [Option.getD_none, Option.getD_some] at this ⊢
              omega
            · have := hres.2.2
              simp only [List.length_cons] at this ⊢
              push_cast at this ⊢
              omega
        · rw [if_neg hgap] at hab
          have hinv : ∀ s0, (some s : Option ℤ) = some s0 →
              0 ≤ s0 ∧ s0 + ((insig + 1 : ℕ) : ℤ) + 1 ≤ i + 1 := by
            intro s0 hs0
            injection hs0 with hs0
            subst hs0
            push_cast
            omega
          have hres := ih (i + 1) (some s) (insig + 1) (by omega) hinv ab hab
          refine ⟨?_, hres.2.1, ?_⟩
          · have := hres.1
            simp only [Option.getD_some] at this ⊢
            omega
          · have := hres.2.2
            simp only [List.length_cons] at this ⊢
            push_cast at this ⊢
            omega

lemma merge_go_sorted (sig_p : ℝ) (w g : ℤ) (gap : ℕ) :
    ∀ (stats : List (ℤ × ℝ)) (i : ℤ) (ps : Option ℤ) (insig : ℕ),
      0 ≤ i → (∀ s, ps = some s → 0 ≤ s ∧ s + (insig : ℤ) + 1 ≤ i) →
      List.Pairwise (fun x y : ℤ × ℤ => x.1 < y.1)
        (merge_go sig_p w g gap stats i ps insig) := by
  intro stats
  induction stats with
  | nil =>
    intro i ps insig hi hps
    cases ps with
    | none => simp [merge_go]
    | some s => simp [merge_go]
  | cons cp rest ih =>
    intro i ps insig hi hps
    by_cases hp : cp.2 < sig_p
    · rw [merge_go.eq_def]
      dsimp only
      rw [if_pos hp]
      apply ih (i + 1) (some (ps.getD i)) 0 (by omega)
      intro s hs
      injection hs with hs
      subst hs
      cases ps with
      | none => simp; omega
      | some s0 =>
        obtain ⟨h1, h2⟩ := hps s0 rfl
        simp
        omega
    · cases ps with
      | none =>
        rw [merge_go, if_neg hp]
        exact ih (i + 1) none insig (by omega) (by simp)
      | some s =>
        rw [merge_go, if_neg hp]
        obtain ⟨h1, h2⟩ := hps s rfl
        by_cases hgap : gap < insig + 1
        · rw [if_pos hgap]
          rw [List.pairwise_cons]
          constructor
          · intro ab hab
            have := (merge_go_bounds sig_p w g gap rest (i + 1) none 0 (by omega)
              (by simp) ab hab).1
            simp only [Option.getD_none] at this
            omega
          · exact ih (i + 1) none 0 (by omega) (by simp)
        · rw [if_neg hgap]
          apply ih (i + 1) (some s) (insig + 1) (by omega)
          intro s0 hs0
          injection hs0 with hs0
          subst hs0
          push_cast
          omega

lemma trim_start_mono (mid : List ℚ) (hs : mid.Pairwise (· ≤ ·)) (hnn : ∀ m ∈ mid, 0 ≤ m)
    (a b : ℤ) (hab : a ≤ b) (hb_lt : bisect_left mid (b : ℚ) < mid.length) :
    pyInt (mid.getD (bisect_left mid (a : ℚ)) 0)
      ≤ pyInt (mid.getD (bisect_left mid (b : ℚ)) 0) := by
  have hmono_idx : bisect_left mid (a : ℚ) ≤ bisect_left mid (b : ℚ) := by
    apply List.countP_mono_left
    intro m _ h
    simp only [decide_eq_true_eq] at h ⊢
    exact lt_of_lt_of_le h (by exact_mod_cast hab)
  have hgetD := sorted_getD_mono mid hs _ _ hmono_idx hb_lt
  have ha_lt : bisect_left mid (a : ℚ) < mid.length := lt_of_le_of_lt hmono_idx hb_lt
  have hnn_a : 0 ≤ mid.getD (bisect_left mid (a : ℚ)) 0 := by
    apply hnn
    rw [List.getD_eq_getElem mid 0 ha_lt]
    exact List.getElem_mem ha_lt
  exact pyInt_mono _ _ hnn_a hgetD

lemma trim_windows_count_spec (mid : List ℚ) (hs : mid.Pairwise (· ≤ ·))
    (hnn : ∀ m ∈ mid, 0 ≤ m) :
    ∀ (wsl : List (ℤ × ℤ)) (lo hi : ℤ),
      (∀ ab ∈ wsl, lo ≤ ab.1 ∧ ab.1 ≤ ab.2 ∧ ab.2 ≤ hi ∧
        ∃ m ∈ mid, (ab.1 : ℚ) ≤ m ∧ m ≤ (ab.2 : ℚ)) →
      List.Pairwise (fun x y : ℤ × ℤ => x.1 < y.1) wsl →
      ∃ ts : List (ℤ × ℤ × ℤ),
        trim_windows_count wsl mid = some ts ∧
        (∀ t ∈ ts, lo ≤ t.1 ∧ t.1 ≤ t.2.1 ∧ t.2.1 ≤ hi) ∧
        (∀ t ∈ ts, ∃ ab ∈ wsl,
          t.1 = pyInt (mid.getD (bisect_left mid (ab.1 : ℚ)) 0)) ∧
        List.Pairwise (fun x y : ℤ × ℤ × ℤ => x.1 ≤ y.1) ts := by
  intro wsl
  induction wsl with
  | nil =>
    intro lo hi _ _
    exact ⟨[], rfl, by simp, by simp, by simp⟩
  | cons ab rest ih =>
    obtain ⟨ws0, we0⟩ := ab
    intro lo hi hall hsort
    obtain ⟨hlo, hab12, hhi, hex⟩ := hall (ws0, we0) (List.mem_cons_self _ _)
    obtain ⟨heq, hf1, hf2, hf3, _⟩ := trim_one_eq mid ws0 we0 hs hnn hex
    obtain ⟨ts, hts, htsb, htscorr, htssort⟩ :=
      ih lo hi (fun x hx => hall x (List.mem_cons_of_mem _ hx)) hsort.of_cons
    refine ⟨(pyInt (mid.getD (bisect_left mid (ws0 : ℚ)) 0),
      pyInt (mid.getD (bisect_right mid (we0 : ℚ) - 1) 0 + 1/2),
      (mid.countP (fun m => decide ((ws0 : ℚ) ≤ m ∧ m ≤ (we0 : ℚ))) : ℤ)) :: ts,
      ?_, ?_, ?_, ?_⟩
    · rw [trim_windows_count, heq, hts]
      rfl
    · intro t ht
      rcases List.mem_cons.mp ht with rfl | ht'
      · exact ⟨le_trans hlo hf1, hf2, le_trans hf3 hhi⟩
      · exact htsb t ht'
    · intro t ht
      rcases List.mem_cons.mp ht with rfl | ht'
      · exact ⟨(ws0, we0), List.mem_cons_self _ _, rfl⟩
      · obtain ⟨ab', hab', he⟩ := htscorr t ht'
        exact ⟨ab', List.mem_cons_of_mem _ hab', he⟩
    · rw [List.pairwise_cons]
      refine ⟨?_, htssort⟩
      intro t ht
      obtain ⟨ab', hab', he⟩ := htscorr t ht
      have hlt : ws0 < ab'.1 := (List.pairwise_cons.mp hsort).1 ab' hab'
      obtain ⟨_, _, _, hex'⟩ := hall ab' (List.mem_cons_of_mem _ hab')
      obtain ⟨m', hm', hm'1, hm'2⟩ := hex'
      have hb_lt : bisect_left mid (ab'.1 : ℚ) < mid.length :=
        countP_lt_length mid _ m' hm' (by simp [not_lt.mpr hm'1])
      rw [he]
      exact trim_start_mono mid hs hnn ws0 ab'.1 (le_of_lt hlt) hb_lt

/-! ## Claim C6 -/

/-- C6 (amended): for every transcript and window-statistic sequence short
enough to have originated from its span, with sorted non-negative midpoints
and every merged window containing a midpoint, `windows2peaks` succeeds and
every final peak lies fully inside the transcript's genomic span, is
well-formed (start ≤ end), and peaks are emitted in non-decreasing start
order.  Pairwise non-overlap does not hold (see the counterexample). -/
theorem windows2peaks_props (tx : Gene) (w : ℤ) (hw : 1 ≤ w) (sig_p : ℝ)
    (stats : List (ℤ × ℝ)) (mid : List ℚ) (junctions : List ℤ) (tr T : ℤ)
    (hs : mid.Pairwise (· ≤ ·)) (hnn : ∀ m ∈ mid, 0 ≤ m)
    (hlen : (stats.length : ℤ) + w
      ≤ (tx.exons.getLastI).stop - (tx.exons.headI).start + 2)
    (hcover : ∀ ab ∈ merge_windows stats w sig_p (tx.exons.headI).start 1,
      ∃ m ∈ mid, (ab.1 : ℚ) ≤ m ∧ m ≤ (ab.2 : ℚ)) :
    ∃ peaks : List (ℤ × ℤ × ℤ × ℝ),
      windows2peaks mid junctions stats w sig_p tx tr T = some peaks ∧
      (∀ p ∈ peaks, (tx.exons.headI).start ≤ p.1 ∧ p.1 ≤ p.2.1 ∧
        p.2.1 ≤ (tx.exons.getLastI).stop) ∧
      List.Pairwise (fun p q : ℤ × ℤ × ℤ × ℝ => p.1 ≤ q.1) peaks := by
  have hbounds : ∀ ab ∈ merge_windows stats w sig_p (tx.exons.headI).start 1,
      (tx.exons.headI).start ≤ ab.1 ∧ ab.1 ≤ ab.2 ∧
        ab.2 ≤ (tx.exons.getLastI).stop ∧
        ∃ m ∈ mid, (ab.1 : ℚ) ≤ m ∧ m ≤ (ab.2 : ℚ) := by
    intro ab hab
    have hb := merge_go_bounds sig_p w (tx.exons.headI).start 1 stats 0 none 0
      le_rfl (by simp) ab hab
    have hb1 := hb.1
    have hb2 := hb.2.1
    have hb3 := hb.2.2
    simp only [Option.getD_none] at hb1
    refine ⟨by omega, by omega, by omega, hcover ab hab⟩
  have hsort : List.Pairwise (fun x y : ℤ × ℤ => x.1 < y.1)
      (merge_windows stats w sig_p (tx.exons.headI).start 1) :=
    merge_go_sorted sig_p w (tx.exons.headI).start 1 stats 0 none 0 le_rfl (by simp)
  obtain ⟨ts, hts, htsb, _, htssort⟩ :=
    trim_windows_count_spec mid hs hnn
      (merge_windows stats w sig_p (tx.exons.headI).start 1)
      (tx.exons.headI).start (tx.exons.getLastI).stop hbounds hsort
  refine ⟨peak_stats ts junctions tr T tx.fpkm_exon tx.fpkm_pre, ?_, ?_, ?_⟩
  · unfold windows2peaks
    rw [hts]
    rfl
  · intro p hp
    unfold peak_stats at hp
    obtain ⟨t, ht, rfl⟩ := List.mem_map.mp hp
    exact htsb t ht
  · unfold peak_stats
    exact htssort.map _ (fun a b h => h)

/-- C6 counterexample: two merged windows can overlap genomically — a peak
closed by the gap rule ends `window_size - 1` bases beyond its last hit
window, which can reach past the start of the next merged window.  With
window statistics hitting at indices 0 and 5 (w = 10, threshold 0.001, span
start 1000) the merged windows are [1000,1009] and [1005,1014]; midpoints
`[1001, 1007, 1007, 1007, 1012]` trim them to the final peaks [1001,1007]
and [1007,1012], which overlap at base 1007, refuting "peaks never overlap
within the same transcript's call set". -/
theorem windows2peaks_overlap :
    (windows2peaks [(1001 : ℚ), 1007, 1007, 1007, 1012] []
        [(3, 0.0001), (0, 1), (0, 1), (0, 1), (0, 1), (3, 0.0001)]
        10 0.001 txSpan 100 1000).map
      (fun peaks => peaks.map (fun p => (p.1, p.2.1)))
      = some [(1001, 1007), (1007, 1012)] ∧
    intervalsOverlap (1001, 1007) (1007, 1012) := by
  constructor
  · have hg : (txSpan.exons.headI).start = 1000 := rfl
    have hmerge : merge_windows
        [((3 : ℤ), (0.0001 : ℝ)), (0, 1), (0, 1), (0, 1), (0, 1), (3, 0.0001)]
        10 0.001 (txSpan.exons.headI).start 1 = [(1000, 1009), (1005, 1014)] := by
      rw [hg]
      norm_num [merge_windows, merge_go, Option.getD]
    unfold windows2peaks
    rw [hmerge]
    have p2a : pyInt ((1007 : ℚ) + 1/2) = 1007 := by
      unfold pyInt
      rw [if_neg (by norm_num), Int.floor_eq_iff]
      norm_num
    have p2b : pyInt ((1012 : ℚ) + 1/2) = 1012 := by
      unfold pyInt
      rw [if_neg (by norm_num), Int.floor_eq_iff]
      norm_num
    have h1 : trim_one [(1001 : ℚ), 1007, 1007, 1007, 1012] 1000 1009
        = some (1001, 1007, 4) := by
      obtain ⟨heq, _, _, _, _⟩ := trim_one_eq [(1001 : ℚ), 1007, 1007, 1007, 1012]
        1000 1009 (by decide) (by decide) ⟨1001, by decide, by decide, by decide⟩
      rw [heq]
      have c1 : ([(1001 : ℚ), 1007, 1007, 1007, 1012]).getD
          (bisect_left [(1001 : ℚ), 1007, 1007, 1007, 1012] (((1000 : ℤ) : ℚ))) 0
          = 1001 := by decide
      have c2 : ([(1001 : ℚ), 1007, 1007, 1007, 1012]).getD
          (bisect_right [(1001 : ℚ), 1007, 1007, 1007, 1012] (((1009 : ℤ) : ℚ)) - 1) 0
          = 1007 := by decide
      have c3 : ([(1001 : ℚ), 1007, 1007, 1007, 1012]).countP
          (fun m => decide ((((1000 : ℤ) : ℚ)) ≤ m ∧ m ≤ (((1009 : ℤ) : ℚ))))
          = 4 := by decide
      rw [c1, c2, c3, p2a]
      have p1 : pyInt (1001 : ℚ) = 1001 := by decide
      rw [p1]
      norm_num
    have h2 : trim_one [(1001 : ℚ), 1007, 1007, 1007, 1012] 1005 1014
        = some (1007, 1012, 4) := by
      obtain ⟨heq, _, _, _, _⟩ := trim_one_eq [(1001 : ℚ), 1007, 1007, 1007, 1012]
        1005 1014 (by decide) (by decide) ⟨1007, by decide, by decide, by decide⟩
      rw [heq]
      have c1 : ([(1001 : ℚ), 1007, 1007, 1007, 1012]).getD
          (bisect_left [(1001 : ℚ), 1007, 1007, 1007, 1012] (((1005 : ℤ) : ℚ))) 0
          = 1007 := by decide
      have c2 : ([(1001 : ℚ), 1007, 1007, 1007, 1012]).getD
          (bisect_right [(1001 : ℚ), 1007, 1007, 1007, 1012] (((1014 : ℤ) : ℚ)) - 1) 0
          = 1012 := by decide
      have c3 : ([(1001 : ℚ), 1007, 1007, 1007, 1012]).countP
          (fun m => decide ((((1005 : ℤ) : ℚ)) ≤ m ∧ m ≤ (((1014 : ℤ) : ℚ))))
          = 4 := by decide
      rw [c1, c2, c3, p2b]
      have p1 : pyInt (1007 : ℚ) = 1007 := by decide
      rw [p1]
      norm_num
    have htrim : trim_windows_count [((1000 : ℤ), (1009 : ℤ)), (1005, 1014)]
        [(1001 : ℚ), 1007, 1007, 1007, 1012]
        = some [(1001, 1007, 4), (1007, 1012, 4)] := by
      rw [trim_windows_count, h1, trim_windows_count, h2, trim_windows_count]
      rfl
    rw [htrim]
    simp [peak_stats]
  · exact ⟨by norm_num, by norm_num⟩

/-- C6 witness: the amended theorem applied to one significant window on
the transcript spanning [1000,1015] with midpoints [1001, 1005]. -/
theorem windows2peaks_props_witness :
    (windows2peaks [(1001 : ℚ), 1005] [] [(3, 0.0001)] 10 0.001 txSpan 100 1000).isSome
      = true := by
  have hg : (txSpan.exons.headI).start = 1000 := rfl
  have hmerge : merge_windows [((3 : ℤ), (0.0001 : ℝ))] 10 0.001
      (txSpan.exons.headI).start 1 = [(1000, 1009)] := by
    rw [hg]
    norm_num [merge_windows, merge_go, Option.getD]
  obtain ⟨peaks, heq, _, _⟩ := windows2peaks_props txSpan 10 (by norm_num) 0.001
    [(3, 0.0001)] [(1001 : ℚ), 1005] [] 100 1000 (by decide) (by decide)
    (by decide)
    (by
      intro ab hab
      rw [hmerge] at hab
      simp only [List.mem_singleton] at hab
      subst hab
      exact ⟨1001, by decide, by decide, by decide⟩)
  rw [heq]
  rfl
